import Mathlib

/-!
Verification of porepy's upwind interface coupling
(src/porepy/numerics/fv/transport/upwind_coupling.py) and primal virtual
element discretization (src/porepy/numerics/vem/primal.py).

The upwind coupling works on per-cell scalar data with exact arithmetic,
so it is embedded over the rationals.  Sparse COO blocks with duplicate
summation are embedded as explicit sums over the list of matched
interface pairs (the triplet lists produced by scipy coo construction).
-/

namespace UpwindCoupling

/-- Sign function matching numpy sign on exact numbers. -/
def npSign (x : ℚ) : ℚ := if 0 < x then 1 else if x < 0 then -1 else 0

/-- Clipping from below at zero, numpy clip with min equal 0. -/
def clipMin0 (x : ℚ) : ℚ := max x 0

/-- Clipping from above at zero, numpy clip with max equal 0. -/
def clipMax0 (x : ℚ) : ℚ := min x 0

/-- The four coupling blocks produced by UpwindCoupling.matrix_rhs.
Blocks cc00 and cc11 are diagonal, stored as their diagonal; cc10 and
cc01 are stored entrywise with duplicate coordinates summed, as scipy
coo matrices do. -/
structure CouplingBlocks where
  cc00 : ℕ → ℚ
  cc11 : ℕ → ℚ
  cc10 : ℕ → ℕ → ℚ
  cc01 : ℕ → ℕ → ℚ

/-- Equal-dimension branch of UpwindCoupling.matrix_rhs.  The matched
interface is the list of pairs (face of g_h, face of g_l) from
sps.find(face_cells); sgnH and sgnL are the per-face orientation signs
extracted from the first incident cell of each grid; beta is beta_n,
indexed by faces of g_h on both sides (source line 57); cellH and cellL
map each face to its incident cell.  The two diagonal accumulations
mirror the two np.add.at calls of the source: the source directs both
of them (lines 66 and 69) at diag_cc11, and never writes diag_cc00. -/
def matrixRhsEqualDim (sgnH sgnL beta : ℕ → ℚ) (cellH cellL : ℕ → ℕ)
    (pairs : List (ℕ × ℕ)) : CouplingBlocks where
  cc00 := fun _ => 0
  cc11 := fun c =>
    (pairs.map fun p =>
      if cellL p.2 = c then
        npSign (clipMin0 (sgnL p.2 * beta p.1)) * (sgnL p.2 * beta p.1)
      else 0).sum
    + (pairs.map fun p =>
      if cellH p.1 = c then
        npSign (clipMin0 (sgnH p.1 * beta p.1)) * (sgnH p.1 * beta p.1)
      else 0).sum
  cc10 := fun i j =>
    (pairs.map fun p =>
      if cellL p.2 = i ∧ cellH p.1 = j then clipMax0 (sgnL p.2 * beta p.1)
      else 0).sum
  cc01 := fun i j =>
    (pairs.map fun p =>
      if cellH p.1 = i ∧ cellL p.2 = j then clipMax0 (sgnH p.1 * beta p.1)
      else 0).sum

/-- Dimension-adjacent branch of UpwindCoupling.matrix_rhs.  The matched
interface is the list of pairs (cell of g_l, face of g_h) from
sps.find(face_cells); sgn is the per-face orientation sign of the higher
grid; beta is beta_n; cellH maps each face of g_h to its incident
cell. -/
def matrixRhsAdjacent (sgn beta : ℕ → ℚ) (cellH : ℕ → ℕ)
    (pairs : List (ℕ × ℕ)) : CouplingBlocks where
  cc00 := fun c =>
    (pairs.map fun p =>
      if cellH p.2 = c then
        npSign (clipMin0 (sgn p.2 * beta p.2)) * (sgn p.2 * beta p.2)
      else 0).sum
  cc11 := fun c =>
    (pairs.map fun p =>
      if p.1 = c then
        npSign (clipMax0 (sgn p.2 * beta p.2)) * (sgn p.2 * beta p.2)
      else 0).sum
  cc10 := fun i j =>
    (pairs.map fun p =>
      if p.1 = i ∧ cellH p.2 = j then -clipMin0 (sgn p.2 * beta p.2)
      else 0).sum
  cc01 := fun i j =>
    (pairs.map fun p =>
      if cellH p.2 = i ∧ p.1 = j then clipMax0 (sgn p.2 * beta p.2)
      else 0).sum

/-- Keep the entries of a list selected by a boolean mask of the same
length (numpy boolean indexing once the lengths agree). -/
def maskKeep {α : Type} (mask : List Bool) (xs : List α) : List α :=
  ((mask.zip xs).filter fun mx => mx.1).map Prod.snd

/-- Numpy boolean fancy indexing: defined only when the mask length
matches the array length, an IndexError otherwise. -/
def boolIndex {α : Type} (mask : List Bool) (xs : List α) : Option (List α) :=
  if mask.length = xs.length then some (maskKeep mask xs) else none

/-- UpwindCoupling.cfl.  The matched interface is the list of pairs
(cell of g_l, face of g_h); beta is beta_n; area gives the face areas of
g_h; cellH maps faces of g_h to their incident cell; aH, aL and phiL are
the optional aperture and porosity fields of the data dictionaries,
defaulting to the constant one when absent.  The result is none when the
computation raises (the second boolean-mask application on line 152 of
the source has the unfiltered mask length), some top for the infinite
sentinel, and some of the minimum otherwise. -/
def cfl (beta area : ℕ → ℚ) (cellH : ℕ → ℕ) (aH aL phiL : Option (ℕ → ℚ))
    (pairs : List (ℕ × ℕ)) : Option (WithTop ℚ) :=
  let notZero := pairs.map fun p => decide (beta p.2 ≠ 0)
  if notZero.all (fun b => !b) then some ⊤ else
  let cellsL := maskKeep notZero (pairs.map Prod.fst)
  let facesH := maskKeep notZero (pairs.map Prod.snd)
  match boolIndex notZero (facesH.map cellH) with
  | none => none
  | some cellsH =>
    let aHf := aH.getD fun _ => 1
    let aLf := aL.getD fun _ => 1
    let phif := phiL.getD fun _ => 1
    let vals := (cellsL.zip (cellsH.zip facesH)).map fun t =>
      let dist := 1/2 * (aLf t.1 / aHf t.2.1)
      let bn := beta t.2.2 / (area t.2.2 * aHf t.2.1)
      |dist / bn| * phif t.1
    match vals with
    | [] => none
    | v :: vs => some ((vs.foldl min v : ℚ) : WithTop ℚ)

end UpwindCoupling

/-!
Embedding of PrimalVEM (src/porepy/numerics/vem/primal.py) over the
rationals.  The degree at most one monomial basis of stiffH1 is indexed by
Option (Fin d): none is the constant monomial (row 0 of the source
arrays) and some k is the scaled linear monomial in coordinate k (row
1 + k).  Division by zero is total in Lean, so inputs on which the
Python kernel would produce non-finite values and fail its assertion are
excluded through the stated hypotheses (the consistency identity and the
nonsingularity of G).
-/

namespace PrimalVEM

open Matrix

/-- Local matrix D of stiffH1: every monomial evaluated at every node of
the cell. -/
def monoD {d n : ℕ} (center : Fin d → ℚ) (diam : ℚ)
    (coord : Fin d → Fin n → ℚ) : Matrix (Fin n) (Option (Fin d)) ℚ :=
  Matrix.of fun j i => match i with
    | none => 1
    | some k => (coord k j - center k) / diam

/-- Gradient array of the monomial basis: a zero row for the constant
monomial on top of the identity divided by the cell diameter. -/
def gradMono {d : ℕ} (diam : ℚ) : Matrix (Option (Fin d)) (Fin d) ℚ :=
  Matrix.of fun i k => match i with
    | none => 0
    | some a => (if a = k then 1 else 0) / diam

/-- Local matrix Gtilde of stiffH1: the stiffness-energy matrix of the
non-constant monomials scaled by the cell volume, with the
constant-monomial row and column left at zero. -/
def gtilde {d : ℕ} (diam vol : ℚ) : Matrix (Option (Fin d)) (Option (Fin d)) ℚ :=
  vol • (gradMono diam * (gradMono (d := d) diam)ᵀ)

/-- Local matrix G of stiffH1: Gtilde with the constant-monomial row
overwritten by the column averages of D. -/
def matG {d n : ℕ} (center : Fin d → ℚ) (diam vol : ℚ)
    (coord : Fin d → Fin n → ℚ) : Matrix (Option (Fin d)) (Option (Fin d)) ℚ :=
  Matrix.of fun i j => match i with
    | none => (∑ r, monoD center diam coord r j) / (n : ℚ)
    | some a => gtilde diam vol (some a) j

/-- Local matrix F of stiffH1: the uniform nodal average for the
constant monomial, and for each linear monomial the sum over the faces
touching the node of the normal-projected gradient divided by
2 to the power d - 1. -/
def matF {d n m : ℕ} (diam : ℚ) (normals : Fin d → Fin m → ℚ)
    (nodeFaces : Fin n → Fin m → Bool) : Matrix (Option (Fin d)) (Fin n) ℚ :=
  Matrix.of fun i j => match i with
    | none => 1 / (n : ℚ)
    | some k => ∑ f ∈ Finset.univ.filter (fun f => nodeFaces j f),
        (∑ a, gradMono diam (some k) a * normals a f) / (2 : ℚ) ^ ((d : ℤ) - 1)

/-- Matrix inverse over the rationals through the adjugate; it agrees
with the Mathlib inverse and is executable. -/
def matInv {p : Type} [Fintype p] [DecidableEq p] (A : Matrix p p ℚ) :
    Matrix p p ℚ :=
  A.det⁻¹ • A.adjugate

/-- Local projection operator Pi_s of stiffH1, the solution of
G Pi_s = F (np.linalg.solve raises on singular G; the embedding uses
the algebraic inverse and the claims assume G nonsingular). -/
def piS {d n m : ℕ} (center : Fin d → ℚ) (vol : ℚ)
    (normals : Fin d → Fin m → ℚ) (diam : ℚ) (coord : Fin d → Fin n → ℚ)
    (nodeFaces : Fin n → Fin m → Bool) : Matrix (Option (Fin d)) (Fin n) ℚ :=
  matInv (matG center diam vol coord) * matF diam normals nodeFaces

/-- PrimalVEM.stiffH1: the local H1 stiffness matrix, consistent part
plus stabilization.  The permeability argument K is accepted exactly as
in the source signature; the source body never reads it. -/
def stiffH1 {d n m : ℕ} (K : Matrix (Fin d) (Fin d) ℚ) (center : Fin d → ℚ)
    (vol : ℚ) (normals : Fin d → Fin m → ℚ) (diam : ℚ)
    (coord : Fin d → Fin n → ℚ) (nodeFaces : Fin n → Fin m → Bool) :
    Matrix (Fin n) (Fin n) ℚ :=
  let D := monoD center diam coord
  let P := piS center vol normals diam coord nodeFaces
  let IP := (1 : Matrix (Fin n) (Fin n) ℚ) - D * P
  Pᵀ * gtilde diam vol * P + IPᵀ * IP

/-- Per-cell data gathered by the assembly loop of PrimalVEM.matrix from
the grid collaborators: the arguments handed to stiffH1 together with
the global indices of the cell's nodes. -/
structure CellData (n : ℕ) where
  d : ℕ
  nn : ℕ
  m : ℕ
  K : Matrix (Fin d) (Fin d) ℚ
  center : Fin d → ℚ
  vol : ℚ
  normals : Fin d → Fin m → ℚ
  diam : ℚ
  coord : Fin d → Fin nn → ℚ
  nodeFaces : Fin nn → Fin m → Bool
  nodesLoc : Fin nn → Fin n

/-- Global assembly of the local stiffness matrices in PrimalVEM.matrix:
the coordinate triplets of every cell are scattered at the global node
pairs and duplicate coordinates accumulate by summation, as in the csr
construction from the I, J, dataIJ arrays. -/
def assembleM (n : ℕ) (cells : List (CellData n)) : Matrix (Fin n) (Fin n) ℚ :=
  Matrix.of fun i j =>
    (cells.map fun cd => ∑ r, ∑ s,
      if cd.nodesLoc r = i ∧ cd.nodesLoc s = j then
        stiffH1 cd.K cd.center cd.vol cd.normals cd.diam cd.coord cd.nodeFaces r s
      else 0).sum

/-- Infinity norm of a matrix as computed by sps.linalg.norm with ord
inf: the largest absolute row sum. -/
def normInf {n : ℕ} (M : Matrix (Fin n) (Fin n) ℚ) : ℚ :=
  Finset.fold max 0 (fun i => ∑ j, |M i j|) Finset.univ

/-- Dirichlet enforcement of PrimalVEM.matrix: every flagged row is
zeroed and its diagonal entry set to the weight. -/
def applyDirichlet {n : ℕ} (M : Matrix (Fin n) (Fin n) ℚ)
    (isDir : Fin n → Bool) (w : ℚ) : Matrix (Fin n) (Fin n) ℚ :=
  Matrix.of fun i j => if isDir i then (if j = i then w else 0) else M i j

/-- PrimalVEM.matrix: a zero matrix and weight one on a 0-d grid;
otherwise global assembly, then the infinity norm of the assembled
matrix when bc weighting is requested (1 otherwise), then Dirichlet
enforcement with that weight.  The boundary-condition flags are none
when the parameter bundle has no bc object. -/
def matrixVEM {n : ℕ} (dim : ℕ) (cells : List (CellData n))
    (bc : Option (Fin n → Bool)) (bcWeight : Bool) :
    Matrix (Fin n) (Fin n) ℚ × ℚ :=
  if dim = 0 then (0, 1)
  else
    let M := assembleM n cells
    let norm := if bcWeight then normInf M else 1
    match bc with
    | none => (M, norm)
    | some isDir => (applyDirichlet M isDir norm, norm)

/-- PrimalVEM.rhs: the raw source array on a 0-d grid; otherwise the
assert requires the bc flags and the bc values to be both present or
both absent, then the right-hand side is zero except on Dirichlet rows,
which carry the weight times the boundary value. -/
def rhsVEM {n : ℕ} (dim : ℕ) (f : Fin n → ℚ) (bc : Option (Fin n → Bool))
    (bcVal : Option (Fin n → ℚ)) (bcWeight : ℚ) : Except Unit (Fin n → ℚ) :=
  if dim = 0 then Except.ok f
  else if bc.isNone ≠ bcVal.isNone then Except.error ()
  else match bc, bcVal with
    | none, _ => Except.ok fun _ => 0
    | some isDir, some bv => Except.ok fun i => if isDir i then bcWeight * bv i else 0
    | some _, none => Except.error ()

/-- PrimalVEM.matrix_rhs: matrix with bc weighting requested, and the
right-hand side built with the returned weight. -/
def matrixRhsVEM {n : ℕ} (dim : ℕ) (cells : List (CellData n))
    (f : Fin n → ℚ) (bc : Option (Fin n → Bool)) (bcVal : Option (Fin n → ℚ)) :
    Matrix (Fin n) (Fin n) ℚ × Except Unit (Fin n → ℚ) :=
  let Mw := matrixVEM dim cells bc true
  (Mw.1, rhsVEM dim f bc bcVal Mw.2)

/-- Center of the reference segment cell with nodes 0 and 1. -/
def sqCenter : Fin 1 → ℚ := fun _ => 1 / 2

/-- Node coordinates of the reference segment cell. -/
def sqCoord : Fin 1 → Fin 2 → ℚ := fun _ j => if j = 0 then 0 else 1

/-- Outward area-weighted face normals of the reference segment cell. -/
def sqNormals : Fin 1 → Fin 2 → ℚ := fun _ f => if f = 0 then -1 else 1

/-- Node-face incidence of the segment cell: node j lies on face j. -/
def sqNodeFaces : Fin 2 → Fin 2 → Bool := fun j f => j = f

/-- Reversed normals used by the negative-volume counterexample cell. -/
def ceNormals : Fin 1 → Fin 2 → ℚ := fun _ f => if f = 0 then 1 else -1

/-- Indicator of the non-constant monomials, used to state the diagonal
form of Gtilde. -/
def dvec {d : ℕ} : Option (Fin d) → ℚ := fun i => match i with
  | none => 0
  | some _ => 1

end PrimalVEM

namespace UpwindCoupling

/-- Arithmetic helper: the absolute value of the negated positive part
is the positive part, which is also the value of the upwind diagonal
term. -/
theorem abs_neg_clipMin0 (q : ℚ) : |(-clipMin0 q)| = npSign (clipMin0 q) * q := by
  rcases lt_trichotomy q 0 with h | h | h
  · simp [clipMin0, npSign, max_eq_right h.le]
  · simp [h, clipMin0, npSign]
  · rw [clipMin0, max_eq_left h.le, abs_neg, abs_of_pos h, npSign, if_pos h, one_mul]

/-- Arithmetic helper: the absolute value of the negative part is the
value of the upwind diagonal term built from the clipped negative
part. -/
theorem abs_clipMax0 (q : ℚ) : |clipMax0 q| = npSign (clipMax0 q) * q := by
  rcases lt_trichotomy q 0 with h | h | h
  · rw [clipMax0, min_eq_left h.le, abs_of_neg h, npSign, if_neg (by linarith), if_pos h]
    ring
  · simp [h, clipMax0, npSign]
  · simp [clipMax0, npSign, min_eq_right h.le]

/-- Claim C1, evaluation of the code at the failing input: in the
equal-dimension branch, for a single matched face pair whose
orientation-corrected flux is positive on both sides (both signs 1 and
beta 2), the diagonal block of the higher grid stays identically zero
while the diagonal of the lower grid receives both self terms: the
second np.add.at of the source targets diag_cc11 instead of
diag_cc00. -/
theorem equalDim_higher_positive_flux_lands_in_lower_diagonal :
    (matrixRhsEqualDim (fun _ => 1) (fun _ => 1) (fun _ => 2)
      (fun _ => 0) (fun _ => 0) [(0, 0)]).cc00 0 = 0
  ∧ (matrixRhsEqualDim (fun _ => 1) (fun _ => 1) (fun _ => 2)
      (fun _ => 0) (fun _ => 0) [(0, 0)]).cc11 0 = 4 := by
  refine ⟨rfl, ?_⟩
  norm_num [matrixRhsEqualDim, npSign, clipMin0]

/-- Claim C4: in the dimension-adjacent branch, for a single matched
pair with orientation-corrected flux q, the off-diagonal entry in block
(1,0) (resp. (0,1)) has the same magnitude as the diagonal self term
generated on the higher (resp. lower) side; when q is positive the
higher diagonal gains q and the (lower, higher) entry is -q, when q is
negative the lower diagonal gains -q and the (higher, lower) entry is
q. -/
theorem adjacent_single_pair_mass_balance (cl fh : ℕ) (sgn beta : ℕ → ℚ)
    (cellH : ℕ → ℕ) :
    |(matrixRhsAdjacent sgn beta cellH [(cl, fh)]).cc10 cl (cellH fh)|
      = (matrixRhsAdjacent sgn beta cellH [(cl, fh)]).cc00 (cellH fh)
  ∧ |(matrixRhsAdjacent sgn beta cellH [(cl, fh)]).cc01 (cellH fh) cl|
      = (matrixRhsAdjacent sgn beta cellH [(cl, fh)]).cc11 cl
  ∧ (0 < sgn fh * beta fh →
      (matrixRhsAdjacent sgn beta cellH [(cl, fh)]).cc00 (cellH fh)
        = sgn fh * beta fh
    ∧ (matrixRhsAdjacent sgn beta cellH [(cl, fh)]).cc10 cl (cellH fh)
        = -(sgn fh * beta fh))
  ∧ (sgn fh * beta fh < 0 →
      (matrixRhsAdjacent sgn beta cellH [(cl, fh)]).cc11 cl
        = -(sgn fh * beta fh)
    ∧ (matrixRhsAdjacent sgn beta cellH [(cl, fh)]).cc01 (cellH fh) cl
        = sgn fh * beta fh) := by
  simp only [matrixRhsAdjacent, List.map_cons, List.map_nil, List.sum_cons,
    List.sum_nil, and_self, if_true, add_zero, if_pos rfl]
  refine ⟨abs_neg_clipMin0 _, abs_clipMax0 _, fun h => ?_, fun h => ?_⟩
  · rw [clipMin0, max_eq_left h.le, npSign, if_pos h, one_mul]
    exact ⟨rfl, rfl⟩
  · rw [clipMax0, min_eq_left h.le, npSign, if_neg (by linarith), if_pos h]
    exact ⟨by ring, rfl⟩

/-- Claim C4 witness, the theorem instantiated at a positive flux of 2
and a negative flux of -3 on one matched pair. -/
theorem adjacent_single_pair_mass_balance_witness :
    (0 < (1 : ℚ) * 2
      ∧ (matrixRhsAdjacent (fun _ => 1) (fun _ => 2) id [(0, 0)]).cc00 0
          = (1 : ℚ) * 2
      ∧ (matrixRhsAdjacent (fun _ => 1) (fun _ => 2) id [(0, 0)]).cc10 0 0
          = -((1 : ℚ) * 2))
  ∧ ((1 : ℚ) * (-3) < 0
      ∧ (matrixRhsAdjacent (fun _ => 1) (fun _ => -3) id [(0, 0)]).cc11 0
          = -((1 : ℚ) * (-3))
      ∧ (matrixRhsAdjacent (fun _ => 1) (fun _ => -3) id [(0, 0)]).cc01 0 0
          = (1 : ℚ) * (-3)) := by
  have h2 := (adjacent_single_pair_mass_balance 0 0 (fun _ => 1)
    (fun _ => 2) id).2.2.1 (by norm_num)
  have h3 := (adjacent_single_pair_mass_balance 0 0 (fun _ => 1)
    (fun _ => -3) id).2.2.2 (by norm_num)
  exact ⟨⟨by norm_num, h2.1, h2.2⟩, ⟨by norm_num, h3.1, h3.2⟩⟩

/-- Claim C5, evaluation of the code at the failing input: with two
matched pairs whose fluxes are 1 and 0, the cfl computation fails (the
boolean mask of length two is applied a second time to the
already-filtered array of length one) instead of returning the minimum
over the single face with non-zero flux. -/
theorem cfl_mixed_zero_flux_raises :
    cfl (fun f => if f = 0 then 1 else 0) (fun _ => 1) id none none none
      [(0, 0), (1, 1)] = none := by decide

/-- Claim C6: when the flux is zero on every matched interface face,
cfl returns the positive-infinity sentinel and reports no error. -/
theorem cfl_all_zero_flux_returns_inf (beta area : ℕ → ℚ) (cellH : ℕ → ℕ)
    (aH aL phiL : Option (ℕ → ℚ)) (pairs : List (ℕ × ℕ))
    (h : ∀ p ∈ pairs, beta p.2 = 0) :
    cfl beta area cellH aH aL phiL pairs = some ⊤ := by
  have hall : ((pairs.map fun p => decide (beta p.2 ≠ 0)).all fun b => !b) = true := by
    rw [List.all_eq_true]
    intro x hx
    rw [List.mem_map] at hx
    obtain ⟨p, hp, rfl⟩ := hx
    simp [h p hp]
  unfold cfl
  rw [if_pos hall]

/-- Claim C6 witness, the theorem instantiated at a single matched pair
carrying the identically zero flux field. -/
theorem cfl_all_zero_flux_returns_inf_witness :
    (∀ p ∈ [((0 : ℕ), (0 : ℕ))], (fun _ : ℕ => (0 : ℚ)) p.2 = 0)
  ∧ cfl (fun _ => 0) (fun _ => 1) id none none none [(0, 0)] = some ⊤ :=
  ⟨by simp, cfl_all_zero_flux_returns_inf _ _ _ _ _ _ _ (by simp)⟩

end UpwindCoupling

namespace PrimalVEM

open Matrix

theorem matInv_eq_inv {p : Type} [Fintype p] [DecidableEq p] (A : Matrix p p ℚ) :
    matInv A = A⁻¹ := by
  rw [matInv, Matrix.inv_def, Ring.inverse_eq_inv]

/-- Over the rationals the star operation is trivial, so the conjugate
transpose is the transpose. -/
theorem conjT_eq_transpose {p r : Type} (M : Matrix p r ℚ) : Mᴴ = Mᵀ := by
  ext i j
  simp [Matrix.conjTranspose_apply]

theorem dot_quad_conj {p q : Type} [Fintype p] [Fintype q] (B : Matrix p q ℚ)
    (M : Matrix p p ℚ) (x : q → ℚ) :
    x ⬝ᵥ ((Bᵀ * M * B) *ᵥ x) = (B *ᵥ x) ⬝ᵥ (M *ᵥ (B *ᵥ x)) := by
  rw [← Matrix.mulVec_mulVec, ← Matrix.mulVec_mulVec, Matrix.dotProduct_mulVec,
    Matrix.vecMul_transpose]

theorem dot_quad_self {p q : Type} [Fintype p] [Fintype q] (B : Matrix q p ℚ)
    (x : p → ℚ) :
    x ⬝ᵥ ((Bᵀ * B) *ᵥ x) = (B *ᵥ x) ⬝ᵥ (B *ᵥ x) := by
  rw [← Matrix.mulVec_mulVec, Matrix.dotProduct_mulVec, Matrix.vecMul_transpose]

theorem dot_self_nonneg {p : Type} [Fintype p] (v : p → ℚ) : 0 ≤ v ⬝ᵥ v :=
  Finset.sum_nonneg fun i _ => mul_self_nonneg _

theorem dvec_nonneg {d : ℕ} (i : Option (Fin d)) : 0 ≤ dvec i := by
  rcases i with _ | a <;> simp [dvec]

/-- Gtilde is the diagonal matrix carrying the volume over the squared
diameter on the non-constant monomials. -/
theorem gtilde_diag {d : ℕ} (diam vol : ℚ) :
    gtilde (d := d) diam vol = Matrix.diagonal (fun i => vol / diam ^ 2 * dvec i) := by
  have key : ∀ a b k : Fin d,
      (if a = k then (1:ℚ) else 0) / diam * ((if b = k then 1 else 0) / diam)
        = if a = k then (if b = k then 1 / (diam * diam) else 0) else 0 := by
    intro a b k
    split_ifs <;> ring
  ext i j
  rcases i with _ | a <;> rcases j with _ | b <;>
    simp only [gtilde, gradMono, Matrix.smul_apply, Matrix.mul_apply,
      Matrix.transpose_apply, Matrix.of_apply, Matrix.diagonal_apply, dvec,
      smul_eq_mul]
  · simp
  · simp
  · simp
  · simp only [key, Finset.sum_ite_eq, Finset.mem_univ, if_true]
    rcases eq_or_ne a b with h | h
    · subst h
      simp [sq]
      ring
    · simp [h, Ne.symm h]

/-- Body of stiffH1 spelled without the local let bindings. -/
theorem stiffH1_eq {d n m : ℕ} (K : Matrix (Fin d) (Fin d) ℚ) (center : Fin d → ℚ)
    (vol : ℚ) (normals : Fin d → Fin m → ℚ) (diam : ℚ)
    (coord : Fin d → Fin n → ℚ) (nodeFaces : Fin n → Fin m → Bool) :
    stiffH1 K center vol normals diam coord nodeFaces
      = (piS center vol normals diam coord nodeFaces)ᵀ * gtilde diam vol
          * piS center vol normals diam coord nodeFaces
        + (1 - monoD center diam coord * piS center vol normals diam coord nodeFaces)ᵀ
          * (1 - monoD center diam coord * piS center vol normals diam coord nodeFaces) :=
  rfl

/-- The projection operator is a left inverse of the basis evaluation
on any cell accepted by the kernel: the consistency identity G equals
F times D makes Pi_s times D the identity. -/
theorem piS_mul_monoD {d n m : ℕ} (center : Fin d → ℚ) (vol : ℚ)
    (normals : Fin d → Fin m → ℚ) (diam : ℚ) (coord : Fin d → Fin n → ℚ)
    (nodeFaces : Fin n → Fin m → Bool)
    (hFD : matG center diam vol coord
      = matF diam normals nodeFaces * monoD center diam coord)
    (hdet : IsUnit (matG center diam vol coord).det) :
    piS center vol normals diam coord nodeFaces * monoD center diam coord = 1 := by
  rw [piS, matInv_eq_inv, Matrix.mul_assoc, ← hFD, Matrix.nonsing_inv_mul _ hdet]

/-- Claim C2, amended: for every cell accepted by the kernel (the
consistency identity G equals F times D holds and G is nonsingular)
whose volume is positive, the local matrix returned by stiffH1 is
symmetric, positive semidefinite, and its null space is exactly the
span of the constant nodal vector.  The positivity of the volume is
forced by the counterexample below and is not implied by acceptance. -/
theorem stiffH1_symm_psd_const_kernel {d n m : ℕ} (K : Matrix (Fin d) (Fin d) ℚ)
    (center : Fin d → ℚ) (vol : ℚ) (normals : Fin d → Fin m → ℚ) (diam : ℚ)
    (coord : Fin d → Fin n → ℚ) (nodeFaces : Fin n → Fin m → Bool)
    (hFD : matG center diam vol coord
      = matF diam normals nodeFaces * monoD center diam coord)
    (hdet : IsUnit (matG center diam vol coord).det)
    (hvol : 0 < vol) :
    (stiffH1 K center vol normals diam coord nodeFaces)ᵀ
      = stiffH1 K center vol normals diam coord nodeFaces
  ∧ (stiffH1 K center vol normals diam coord nodeFaces).PosSemidef
  ∧ ∀ x : Fin n → ℚ,
      stiffH1 K center vol normals diam coord nodeFaces *ᵥ x = 0
        ↔ ∃ c : ℚ, x = fun _ => c := by
  have hPD := piS_mul_monoD center vol normals diam coord nodeFaces hFD hdet
  have hGt := gtilde_diag (d := d) diam vol
  have hq0 : 0 ≤ vol / diam ^ 2 := div_nonneg hvol.le (sq_nonneg diam)
  have hpsdGt : (gtilde (d := d) diam vol).PosSemidef := by
    rw [hGt]
    exact Matrix.PosSemidef.diagonal fun i => mul_nonneg hq0 (dvec_nonneg i)
  have hpsd : (stiffH1 K center vol normals diam coord nodeFaces).PosSemidef := by
    rw [stiffH1_eq]
    have h1 := hpsdGt.conjTranspose_mul_mul_same
      (piS center vol normals diam coord nodeFaces)
    have h2 := Matrix.posSemidef_conjTranspose_mul_self
      (1 - monoD center diam coord * piS center vol normals diam coord nodeFaces)
    rw [conjT_eq_transpose] at h1 h2
    exact h1.add h2
  refine ⟨?_, hpsd, ?_⟩
  · have h := hpsd.isHermitian
    rwa [Matrix.IsHermitian, conjT_eq_transpose] at h
  intro x
  constructor
  · intro hx
    have hquad : x ⬝ᵥ (stiffH1 K center vol normals diam coord nodeFaces *ᵥ x) = 0 := by
      rw [hx, Matrix.dotProduct_zero]
    rw [stiffH1_eq, Matrix.add_mulVec, Matrix.dotProduct_add, dot_quad_conj,
      dot_quad_self] at hquad
    set y := piS center vol normals diam coord nodeFaces *ᵥ x with hy
    set z := (1 - monoD center diam coord
      * piS center vol normals diam coord nodeFaces) *ᵥ x with hz
    have hsum : y ⬝ᵥ (gtilde (d := d) diam vol *ᵥ y)
        = ∑ i, vol / diam ^ 2 * dvec i * (y i * y i) := by
      rw [hGt]
      refine Finset.sum_congr rfl fun i _ => ?_
      rw [Matrix.mulVec_diagonal]
      ring
    have hnn : ∀ i ∈ Finset.univ, (0:ℚ) ≤ vol / diam ^ 2 * dvec i * (y i * y i) :=
      fun i _ => mul_nonneg (mul_nonneg hq0 (dvec_nonneg i)) (mul_self_nonneg _)
    rw [hsum] at hquad
    have hzdot : (0:ℚ) ≤ z ⬝ᵥ z := dot_self_nonneg z
    have hsnn := Finset.sum_nonneg hnn
    have hg0 : ∑ i, vol / diam ^ 2 * dvec i * (y i * y i) = 0 := by linarith
    have hz0 : z ⬝ᵥ z = 0 := by linarith
    have hzz : z = 0 := Matrix.dotProduct_self_eq_zero.mp hz0
    have hysome : ∀ a : Fin d, y (some a) = 0 := by
      intro a
      have hqpos : 0 < vol / diam ^ 2 := by
        rcases hq0.lt_or_eq with h | h
        · exact h
        · exfalso
          apply hdet.ne_zero
          refine Matrix.det_eq_zero_of_row_eq_zero (some a) fun j => ?_
          show gtilde diam vol (some a) j = 0
          rw [hGt, Matrix.diagonal_apply, ← h]
          simp
      have hterm := (Finset.sum_eq_zero_iff_of_nonneg hnn).mp hg0 (some a)
        (Finset.mem_univ _)
      have hys : y (some a) * y (some a) = 0 := by
        rcases mul_eq_zero.mp hterm with h | h
        · exact absurd h (by simp [dvec, hqpos.ne'])
        · exact h
      exact mul_self_eq_zero.mp hys
    have hxDy : x = monoD center diam coord *ᵥ y := by
      have h0 : (1 - monoD center diam coord
          * piS center vol normals diam coord nodeFaces) *ᵥ x = 0 := hzz
      rw [Matrix.sub_mulVec, Matrix.one_mulVec, ← Matrix.mulVec_mulVec, ← hy,
        sub_eq_zero] at h0
      exact h0
    refine ⟨y none, ?_⟩
    rw [hxDy]
    funext j
    simp [Matrix.mulVec, Matrix.dotProduct, Fintype.sum_option, monoD, hysome]
  · rintro ⟨c, rfl⟩
    have hDu : monoD center diam coord
        *ᵥ (fun i => Option.rec c (fun _ => 0) i) = fun _ => c := by
      funext j
      simp [Matrix.mulVec, Matrix.dotProduct, Fintype.sum_option, monoD]
    have hPu : piS center vol normals diam coord nodeFaces *ᵥ (fun _ => c)
        = fun i => Option.rec c (fun _ => 0) i := by
      conv_lhs => rw [← hDu]
      rw [Matrix.mulVec_mulVec, hPD, Matrix.one_mulVec]
    have hGtu : gtilde (d := d) diam vol
        *ᵥ (fun i => Option.rec c (fun _ => 0) i) = 0 := by
      funext i
      rw [hGt]
      rcases i with _ | a <;> simp [Matrix.mulVec_diagonal, dvec]
    have hMx : (1 - monoD center diam coord
        * piS center vol normals diam coord nodeFaces) *ᵥ (fun _ => c) = 0 := by
      rw [Matrix.sub_mulVec, Matrix.one_mulVec, ← Matrix.mulVec_mulVec, hPu, hDu]
      simp
    rw [stiffH1_eq, Matrix.add_mulVec, ← Matrix.mulVec_mulVec, ← Matrix.mulVec_mulVec,
      hPu, hGtu, Matrix.mulVec_zero, zero_add,
      ← Matrix.mulVec_mulVec, hMx, Matrix.mulVec_zero]

/-- The consistency identity holds on the reference segment cell. -/
theorem sqFD : matG sqCenter 1 1 sqCoord
    = matF 1 sqNormals sqNodeFaces * monoD sqCenter 1 sqCoord := by
  ext i j
  fin_cases i <;> fin_cases j <;>
    simp [matG, matF, gtilde, gradMono, monoD, sqCenter, sqCoord, sqNormals,
      sqNodeFaces, Matrix.mul_apply, Fintype.sum_option, Finset.sum_filter,
      Fin.sum_univ_two, Fin.sum_univ_one] <;> norm_num

/-- The matrix G of the reference segment cell is the identity. -/
theorem sqG_eq_one : matG sqCenter 1 1 sqCoord = 1 := by
  ext i j
  fin_cases i <;> fin_cases j <;>
    simp [matG, gtilde, gradMono, monoD, sqCenter, sqCoord, Matrix.mul_apply,
      Fin.sum_univ_two, Fin.sum_univ_one, Matrix.one_apply] <;> norm_num

theorem sqG_isUnit_det : IsUnit (matG sqCenter 1 1 sqCoord).det := by
  rw [sqG_eq_one]
  simp

/-- Claim C2 witness: the amended theorem instantiated on the reference
segment cell with unit volume, unit diameter and unit node count scale,
all hypotheses discharged concretely. -/
theorem stiffH1_symm_psd_const_kernel_witness :
    (matG sqCenter 1 1 sqCoord
      = matF 1 sqNormals sqNodeFaces * monoD sqCenter 1 sqCoord)
  ∧ IsUnit (matG sqCenter 1 1 sqCoord).det
  ∧ (0:ℚ) < 1
  ∧ ((stiffH1 0 sqCenter 1 sqNormals 1 sqCoord sqNodeFaces)ᵀ
        = stiffH1 0 sqCenter 1 sqNormals 1 sqCoord sqNodeFaces
    ∧ (stiffH1 0 sqCenter 1 sqNormals 1 sqCoord sqNodeFaces).PosSemidef
    ∧ ∀ x : Fin 2 → ℚ,
        stiffH1 0 sqCenter 1 sqNormals 1 sqCoord sqNodeFaces *ᵥ x = 0
          ↔ ∃ c : ℚ, x = fun _ => c) :=
  ⟨sqFD, sqG_isUnit_det, by norm_num,
    stiffH1_symm_psd_const_kernel 0 sqCenter 1 sqNormals 1 sqCoord sqNodeFaces
      sqFD sqG_isUnit_det (by norm_num)⟩

theorem ceG_mul_self :
    matG sqCenter 1 (-1) sqCoord * matG sqCenter 1 (-1) sqCoord = 1 := by
  ext i j
  fin_cases i <;> fin_cases j <;>
    simp [matG, gtilde, gradMono, monoD, sqCenter, sqCoord, Matrix.mul_apply,
      Fintype.sum_option, Fin.sum_univ_two, Fin.sum_univ_one, Matrix.one_apply] <;>
    norm_num

theorem ceG_isUnit_det : IsUnit (matG sqCenter 1 (-1) sqCoord).det :=
  (Matrix.isUnit_iff_isUnit_det _).mp ⟨⟨_, _, ceG_mul_self, ceG_mul_self⟩, rfl⟩

theorem cePiS_eq : piS sqCenter (-1) ceNormals 1 sqCoord sqNodeFaces
    = matG sqCenter 1 (-1) sqCoord * matF 1 ceNormals sqNodeFaces := by
  rw [piS, matInv_eq_inv, Matrix.inv_eq_right_inv ceG_mul_self]

theorem ceY_eval : piS sqCenter (-1) ceNormals 1 sqCoord sqNodeFaces *ᵥ ![1, -1]
    = fun i => Option.rec 0 (fun _ => -2) i := by
  rw [cePiS_eq, ← Matrix.mulVec_mulVec]
  funext i
  rcases i with _ | a
  · simp [matG, matF, gtilde, gradMono, monoD, sqCenter, sqCoord, ceNormals,
      sqNodeFaces, Matrix.mulVec, Matrix.dotProduct, Matrix.mul_apply,
      Matrix.smul_apply, Matrix.transpose_apply, Fintype.sum_option,
      Finset.sum_filter, Fin.sum_univ_two, Fin.sum_univ_one]
    norm_num
  · fin_cases a
    simp [matG, matF, gtilde, gradMono, monoD, sqCenter, sqCoord, ceNormals,
      sqNodeFaces, Matrix.mulVec, Matrix.dotProduct, Matrix.mul_apply,
      Matrix.smul_apply, Matrix.transpose_apply, Fintype.sum_option,
      Finset.sum_filter, Fin.sum_univ_two, Fin.sum_univ_one]
    norm_num

theorem ceDy_eval : monoD sqCenter 1 sqCoord
    *ᵥ (fun i => Option.rec 0 (fun _ => -2) i) = ![1, -1] := by
  funext j
  fin_cases j <;>
    simp [monoD, sqCenter, sqCoord, Matrix.mulVec, Matrix.dotProduct,
      Fintype.sum_option, Fin.sum_univ_one] <;> norm_num

theorem ceGtQuad : (fun i => Option.rec (0:ℚ) (fun _ => -2) i) ⬝ᵥ
    (gtilde (d := 1) 1 (-1) *ᵥ (fun i => Option.rec (0:ℚ) (fun _ => -2) i)) = -4 := by
  rw [gtilde_diag]
  simp [Matrix.mulVec_diagonal, Matrix.dotProduct, Fintype.sum_option, dvec,
    Fin.sum_univ_one]
  norm_num

/-- Claim C2 counterexample: the segment cell with volume -1 and
reversed normals passes the consistency assertion and has nonsingular
G, yet the matrix returned by stiffH1 is not positive semidefinite, so
the claim as stated (over every accepted cell) is false. -/
theorem stiffH1_negvol_not_posSemidef :
    (matG sqCenter 1 (-1) sqCoord
      = matF 1 ceNormals sqNodeFaces * monoD sqCenter 1 sqCoord)
  ∧ IsUnit (matG sqCenter 1 (-1) sqCoord).det
  ∧ ¬ (stiffH1 0 sqCenter (-1) ceNormals 1 sqCoord sqNodeFaces).PosSemidef := by
  refine ⟨?_, ceG_isUnit_det, ?_⟩
  · ext i j
    fin_cases i <;> fin_cases j <;>
      simp [matG, matF, gtilde, gradMono, monoD, sqCenter, sqCoord, ceNormals,
        sqNodeFaces, Matrix.mul_apply, Fintype.sum_option, Finset.sum_filter,
        Fin.sum_univ_two, Fin.sum_univ_one] <;> norm_num
  · intro hpsd
    have h := hpsd.2 ![1, -1]
    have hstar : star ![(1:ℚ), -1] = ![(1:ℚ), -1] := rfl
    have hz : (1 - monoD sqCenter 1 sqCoord
        * piS sqCenter (-1) ceNormals 1 sqCoord sqNodeFaces) *ᵥ ![1, -1] = 0 := by
      rw [Matrix.sub_mulVec, Matrix.one_mulVec, ← Matrix.mulVec_mulVec, ceY_eval,
        ceDy_eval, sub_self]
    rw [hstar, stiffH1_eq, Matrix.add_mulVec, Matrix.dotProduct_add, dot_quad_conj,
      dot_quad_self, ceY_eval, ceGtQuad, hz, Matrix.zero_dotProduct] at h
    norm_num at h

/-- Claim C9: stiffH1 does not read its permeability argument, so two
calls differing only in the permeability tensor return the same local
matrix. -/
theorem stiffH1_ignores_permeability {d n m : ℕ}
    (K1 K2 : Matrix (Fin d) (Fin d) ℚ) (center : Fin d → ℚ) (vol : ℚ)
    (normals : Fin d → Fin m → ℚ) (diam : ℚ) (coord : Fin d → Fin n → ℚ)
    (nodeFaces : Fin n → Fin m → Bool) :
    stiffH1 K1 center vol normals diam coord nodeFaces
      = stiffH1 K2 center vol normals diam coord nodeFaces :=
  rfl

/-- Claim C7: on a grid of positive dimension, the weight returned by
matrix with bc weighting requested is the infinity norm of the
assembled global matrix before the Dirichlet rows are modified, and
with weighting not requested the weight used is 1. -/
theorem matrix_bc_weight_eq_normInf_preBC {n : ℕ} (dim : ℕ)
    (cells : List (CellData n)) (bc : Option (Fin n → Bool)) (hdim : dim ≠ 0) :
    (matrixVEM dim cells bc true).2 = normInf (assembleM n cells)
  ∧ (matrixVEM dim cells bc false).2 = 1 := by
  rcases bc with _ | isDir <;> simp [matrixVEM, hdim]

/-- Claim C7 witness: the theorem instantiated on a one-node grid of
dimension one with an empty cell list. -/
theorem matrix_bc_weight_eq_normInf_preBC_witness :
    ((1:ℕ) ≠ 0)
  ∧ ((matrixVEM (n := 1) 1 [] none true).2 = normInf (assembleM 1 [])
    ∧ (matrixVEM (n := 1) 1 [] none false).2 = 1) :=
  ⟨by norm_num, matrix_bc_weight_eq_normInf_preBC 1 [] none (by norm_num)⟩

/-- Claim C3: after matrix_rhs on a grid of positive dimension, every
Dirichlet-flagged row of the returned matrix is zero off the diagonal,
carries the weight (the infinity norm of the pre-boundary-condition
assembled matrix) on the diagonal, and the corresponding right-hand
side entry is the weight times the boundary value. -/
theorem matrixRhs_dirichlet_rows {n : ℕ} (dim : ℕ) (cells : List (CellData n))
    (f : Fin n → ℚ) (isDir : Fin n → Bool) (bv : Fin n → ℚ) (i : Fin n)
    (hdim : dim ≠ 0) (hi : isDir i = true) :
    (∀ j, (matrixRhsVEM dim cells f (some isDir) (some bv)).1 i j
        = if j = i then normInf (assembleM n cells) else 0)
  ∧ ∃ r, (matrixRhsVEM dim cells f (some isDir) (some bv)).2 = Except.ok r
      ∧ r i = normInf (assembleM n cells) * bv i := by
  constructor
  · intro j
    simp [matrixRhsVEM, matrixVEM, applyDirichlet, hdim, hi]
  · refine ⟨fun k => if isDir k then normInf (assembleM n cells) * bv k else 0,
      ?_, ?_⟩
    · simp [matrixRhsVEM, rhsVEM, matrixVEM, hdim]
    · simp [hi]

/-- Claim C3 witness: the theorem instantiated on a one-node grid of
dimension one, empty cell list, the node flagged Dirichlet with
boundary value 5. -/
theorem matrixRhs_dirichlet_rows_witness :
    ((1:ℕ) ≠ 0)
  ∧ ((fun _ : Fin 1 => true) 0 = true)
  ∧ ((∀ j, (matrixRhsVEM (n := 1) 1 [] (fun _ => 3) (some fun _ => true)
        (some fun _ => 5)).1 0 j
        = if j = 0 then normInf (assembleM 1 []) else 0)
    ∧ ∃ r, (matrixRhsVEM (n := 1) 1 [] (fun _ => 3) (some fun _ => true)
        (some fun _ => 5)).2 = Except.ok r
        ∧ r 0 = normInf (assembleM 1 []) * (fun _ : Fin 1 => (5:ℚ)) 0) :=
  ⟨by norm_num, rfl,
    matrixRhs_dirichlet_rows 1 [] (fun _ => 3) (fun _ => true) (fun _ => 5) 0
      (by norm_num) rfl⟩

/-- Claim C8, amended: on a grid of positive dimension, supplying
exactly one of the boundary flags and boundary values to rhs is a
reported failure.  On 0-d grids the source array is returned before the
check runs, which is the counterexample to the claim as stated. -/
theorem rhs_mismatched_bc_error {n : ℕ} (dim : ℕ) (f : Fin n → ℚ)
    (bc : Option (Fin n → Bool)) (bcVal : Option (Fin n → ℚ)) (w : ℚ)
    (hdim : dim ≠ 0) (hmis : bc.isNone ≠ bcVal.isNone) :
    rhsVEM dim f bc bcVal w = Except.error () := by
  unfold rhsVEM
  rw [if_neg hdim, if_pos hmis]

/-- Claim C8 witness: the amended theorem instantiated at dimension one
with flags present and values absent. -/
theorem rhs_mismatched_bc_error_witness :
    ((1:ℕ) ≠ 0)
  ∧ ((some fun _ : Fin 1 => true).isNone
      ≠ (none : Option (Fin 1 → ℚ)).isNone)
  ∧ rhsVEM 1 (fun _ : Fin 1 => (3:ℚ)) (some fun _ => true) none 1
      = Except.error () :=
  ⟨by norm_num, by simp,
    rhs_mismatched_bc_error 1 _ _ _ _ (by norm_num) (by simp)⟩

/-- Claim C8 counterexample: on a 0-d grid, a call to rhs with boundary
flags present and boundary values absent succeeds and returns the raw
source array, so the claim quantified over every call is false. -/
theorem rhs_mismatched_bc_dim0_no_error :
    ((some fun _ : Fin 1 => true).isNone
      ≠ (none : Option (Fin 1 → ℚ)).isNone)
  ∧ rhsVEM 0 (fun _ : Fin 1 => (3:ℚ)) (some fun _ => true) none 1
      = Except.ok (fun _ => 3) :=
  ⟨by simp, rfl⟩

/-- Claim C10: on a 0-d grid, rhs returns the raw source array for
every combination of boundary flags and values, mismatched ones
included, and reports no error. -/
theorem rhs_dim0_returns_source {n : ℕ} (f : Fin n → ℚ)
    (bc : Option (Fin n → Bool)) (bcVal : Option (Fin n → ℚ)) (w : ℚ) :
    rhsVEM 0 f bc bcVal w = Except.ok f :=
  rfl

end PrimalVEM
